import Mathlib

/-!
Verification of the lazy-sequence engine (src/lazy.rs) and the size-capped
random generator helpers (src/arbitrary.rs) of the qc.rs repository.

Embedding notes for src/lazy.rs:

The Rust type `Lazy<T>` holds `head : ~[T]` (ready values, FIFO) and
`thunks : ~[~Callable<Lazy<T>>]` (deferred computations, FIFO).  A deferred
computation, when forced, receives `&mut Lazy<T>`; every computation in this
repository (the thunks built by `push_thunk` in the test and by `push_map`)
only appends: it pushes zero or more ready values and enqueues zero or more
fresh deferred computations, which is also the contract the specification
assigns to DeferredComputation.  We therefore embed a deferred computation
as a code `c : C` together with an interpretation
`force : C → List T × List C`: forcing `c` appends `(force c).1` to `head`
and `(force c).2` to the tail of `thunks`.  Quantifying theorems over the
code type `C` and over `force` recovers the existential typing of
`~Callable<Lazy<T>>`.

`Lazy::next` runs a while loop that can diverge (an infinite chain of
thunks is an intentional possibility), so the embedded `next` takes a fuel
bound on the number of loop iterations and returns `none` when the fuel is
exhausted; `some (r, L)` means the Rust call returns `r` leaving state `L`.
-/

/-- State of `Lazy<T>` from src/lazy.rs: `head` is the vector of ready
values, `thunks` the queue of deferred computations, represented by codes
drawn from `C`. -/
structure Lazy (T : Type) (C : Type) : Type where
  head : List T
  thunks : List C
  deriving DecidableEq

/-- `Lazy::new`: empty ready buffer, empty thunk queue. -/
def Lazy.new {T C : Type} : Lazy T C := ⟨[], []⟩

/-- `Lazy::push`: `self.head.push(x)` appends one value at the tail of the
ready buffer, leaving the thunk queue untouched. -/
def Lazy.push {T C : Type} (L : Lazy T C) (x : T) : Lazy T C :=
  ⟨L.head ++ [x], L.thunks⟩

/-- `Lazy::push_thunk`: wraps its argument as a deferred computation and
appends it at the tail of the thunk queue, leaving the ready buffer
untouched. -/
def Lazy.push_thunk {T C : Type} (L : Lazy T C) (c : C) : Lazy T C :=
  ⟨L.head, L.thunks ++ [c]⟩

/-- `Lazy::next`: while the ready buffer is empty and the thunk queue is
not, shift the head thunk out of the queue and call it (its appends land in
`head` and at the tail of `thunks`); then shift and return the head ready
value if any, else `None`.  `fuel` bounds the loop iterations; `none`
means the bound was hit. -/
def Lazy.next {T C : Type} (force : C → List T × List C) :
    Nat → Lazy T C → Option (Option T × Lazy T C)
  | fuel, ⟨[], c :: cs⟩ =>
    match fuel with
    | 0 => none
    | fuel + 1 => Lazy.next force fuel ⟨(force c).1, cs ++ (force c).2⟩
  | _, ⟨[], []⟩ => some (none, ⟨[], []⟩)
  | _, ⟨v :: vs, cs⟩ => some (some v, ⟨vs, cs⟩)

/-- Repeated `next` calls: `pulls force n fuel L` performs `n` pulls, each
with loop bound `fuel`, collecting the returned options in order. -/
def Lazy.pulls {T C : Type} (force : C → List T × List C) :
    Nat → Nat → Lazy T C → Option (List (Option T) × Lazy T C)
  | 0, _, L => some ([], L)
  | n + 1, fuel, L =>
    match Lazy.next force fuel L with
    | none => none
    | some (r, L1) =>
      match Lazy.pulls force n fuel L1 with
      | none => none
      | some (rs, L2) => some (r :: rs, L2)

/-- A sequence built from a list of `push` calls only. -/
def Lazy.ofPushes {T C : Type} (vs : List T) : Lazy T C :=
  vs.foldl Lazy.push Lazy.new

/-- One construction step before the first pull: either a `push` of a value
(`Sum.inl`) or a `push_thunk` of a deferred computation (`Sum.inr`). -/
def Lazy.applyOps {T C : Type} (L : Lazy T C) (ops : List (T ⊕ C)) : Lazy T C :=
  ops.foldl (fun M o => Sum.elim M.push M.push_thunk o) L

/-- The values pushed by an interleaving, in push order. -/
def opsValues {T C : Type} (ops : List (T ⊕ C)) : List T :=
  ops.filterMap Sum.getLeft?

/-- The thunks pushed by an interleaving, in push order. -/
def opsThunks {T C : Type} (ops : List (T ⊕ C)) : List C :=
  ops.filterMap Sum.getRight?

/-- Modelled from the spec sentence for the order invariant: the values
produced by forcing the pending entries in FIFO order, recursively — forcing
the head entry contributes its pushed values first, and the entries it
enqueues are appended at the tail of the remaining queue.  `fuel` bounds the
number of forcings; `none` means the bound was hit.  This is the spec-side
description, to be compared with the behaviour of `Lazy.next`. -/
def specDrain {T C : Type} (force : C → List T × List C) :
    Nat → List C → Option (List T)
  | _, [] => some []
  | 0, _ :: _ => none
  | fuel + 1, c :: cs =>
    match specDrain force fuel (cs ++ (force c).2) with
    | none => none
    | some out => some ((force c).1 ++ out)

/-- `Lazy::push_map` over a finite source, defunctionalized: the captured
environment of the single thunk that `push_map` enqueues is the pair of the
mapping function and the not-yet-consumed rest of the source, so with the
function fixed as a parameter the thunk's code is the remaining source
list.  Forcing it mirrors the closure body: if the source yields nothing,
do nothing; if it yields `x`, push `f x` and re-enqueue the combinator over
the rest. -/
def mapForce {A T : Type} (f : A → T) : List A → List T × List (List A)
  | [] => ([], [])
  | x :: xs => ([f x], [xs])

/-- Seeding call `L.push_map(src, f)`: a single `push_thunk` whose code is
the whole source (the function is the `mapForce` parameter). -/
def Lazy.push_map {T A : Type} (L : Lazy T (List A)) (src : List A) :
    Lazy T (List A) :=
  L.push_thunk src

/-- `Lazy::push_map` over an unbounded source, defunctionalized: the source
iterator is the stream `g` consumed forward-only, so the thunk's code is
the current read position.  Forcing pushes the mapped current element and
re-enqueues the combinator at the next position; the source never ends. -/
def mapForceS {A T : Type} (f : A → T) (g : Nat → A) :
    Nat → List T × List Nat :=
  fun i => ([f (g i)], [i + 1])

/-- Seeding call for the unbounded-source map: one thunk at read position
`i`. -/
def Lazy.push_mapS {T : Type} (L : Lazy T Nat) (i : Nat) : Lazy T Nat :=
  L.push_thunk i

/-- One successful forcing step of the pull loop: if the ready buffer is
empty and the queue is nonempty, dequeue the head computation and, when it
completes, apply its appends.  `none` when no successful step applies. -/
def Lazy.stepOk {T C : Type} (forceE : C → Option (List T × List C))
    (L : Lazy T C) : Option (Lazy T C) :=
  match L with
  | ⟨[], c :: cs⟩ =>
    match forceE c with
    | none => none
    | some r => some ⟨r.1, cs ++ r.2⟩
  | _ => none

/-- Iterated successful forcing steps. -/
def Lazy.iterSteps {T C : Type} (forceE : C → Option (List T × List C)) :
    Nat → Lazy T C → Option (Lazy T C)
  | 0, L => some L
  | k + 1, L =>
    match Lazy.stepOk forceE L with
    | none => none
    | some M => Lazy.iterSteps forceE k M

/-- `Lazy::next` when forced computations may fail.  A failing code `c` has
`forceE c = none`: its function raises before performing any append, as
with a failing mapping function in `push_map`, where `f(x)` is evaluated
before any push touches the sequence.  The failure surfaces synchronously
as `Except.error` carrying the sequence state at the moment of failure;
the outer `none` still means the loop fuel was hit. -/
def Lazy.nextE {T C : Type} (forceE : C → Option (List T × List C)) :
    Nat → Lazy T C → Option (Except (Lazy T C) (Option T × Lazy T C))
  | fuel, ⟨[], c :: cs⟩ =>
    match fuel with
    | 0 => none
    | fuel + 1 =>
      match forceE c with
      | none => some (Except.error ⟨[], cs⟩)
      | some r => Lazy.nextE forceE fuel ⟨r.1, cs ++ r.2⟩
  | _, ⟨[], []⟩ => some (Except.ok (none, ⟨[], []⟩))
  | _, ⟨v :: vs, cs⟩ => some (Except.ok (some v, ⟨vs, cs⟩))

/-- Tag a list of freshly enqueued codes with consecutive identities
starting at `n` (ghost instrumentation for the single-shot property). -/
def tagFrom {C : Type} : Nat → List C → List (Nat × C)
  | _, [] => []
  | n, c :: cs => (n, c) :: tagFrom (n + 1) cs

/-- Ghost-instrumented sequence state: each queued computation carries an
identity, and `ctr` is the next fresh identity.  Erasing the identities
gives back `Lazy`. -/
structure ILazy (T C : Type) : Type where
  head : List T
  thunks : List (Nat × C)
  ctr : Nat
  deriving DecidableEq

/-- The identities currently in the queue. -/
def ILazy.ids {T C : Type} (L : ILazy T C) : List Nat :=
  L.thunks.map Prod.fst

/-- Drop the ghost identities. -/
def ILazy.erase {T C : Type} (L : ILazy T C) : Lazy T C :=
  ⟨L.head, L.thunks.map Prod.snd⟩

/-- Well-formed instrumented state: queued identities are distinct and all
below the fresh counter. -/
def ILazy.WF {T C : Type} (L : ILazy T C) : Prop :=
  L.ids.Nodup ∧ ∀ i ∈ L.ids, i < L.ctr

/-- Instrumented `Lazy::next`: identical to `Lazy.next` except that the
computation invoked by each loop iteration is removed from the queue before
its call, the codes it enqueues receive fresh identities, and the
identities of the invoked computations are reported in invocation order. -/
def ILazy.inext {T C : Type} (force : C → List T × List C) :
    Nat → ILazy T C → Option (List Nat × Option T × ILazy T C)
  | fuel, ⟨[], (i, c) :: cs, ctr⟩ =>
    match fuel with
    | 0 => none
    | fuel + 1 =>
      match ILazy.inext force fuel
          ⟨(force c).1, cs ++ tagFrom ctr (force c).2,
            ctr + (force c).2.length⟩ with
      | none => none
      | some (ids, r, L) => some (i :: ids, r, L)
  | _, ⟨[], [], ctr⟩ => some ([], none, ⟨[], [], ctr⟩)
  | _, ⟨v :: vs, cs, ctr⟩ => some ([], some v, ⟨vs, cs, ctr⟩)

/-- Instrumented repeated pulls, accumulating the invoked identities. -/
def ILazy.ipulls {T C : Type} (force : C → List T × List C) :
    Nat → Nat → ILazy T C → Option (List Nat × List (Option T) × ILazy T C)
  | 0, _, L => some ([], [], L)
  | n + 1, fuel, L =>
    match ILazy.inext force fuel L with
    | none => none
    | some (ids, r, L1) =>
      match ILazy.ipulls force n fuel L1 with
      | none => none
      | some (ids2, rs, L2) => some (ids ++ ids2, r :: rs, L2)

/-!
Embedding of src/arbitrary.rs.

`small_n(size)` draws `f` from the `Exp1` distribution, computes
`n = ((*f) * (size as f64)) as uint` and returns `n.min(&(16 * size))`.
The floating-point sampling and cast are modelled by an arbitrary natural
number `sample` standing for the cast result `n`; quantifying over `sample`
covers every outcome of the random source.  `Iter` is the helper iterator
whose `next` decrements `count` and generates one `arbitrary(size)` element;
the element generators are modelled by an abstract supply function.
-/

/-- `small_n` from src/arbitrary.rs: the exponentially distributed value
scaled by `size` (modelled by `sample`) capped at `16 * size`. -/
def small_n (size sample : Nat) : Nat :=
  min sample (16 * size)

/-- The helper `Iter` struct: a countdown and the size passed to each
element generation. -/
structure Iter : Type where
  count : Nat
  size : Nat
  deriving DecidableEq

/-- `arbiter`: an `Iter` with `count = small_n(sz)` for a given random
outcome `sample`. -/
def arbiter (sz sample : Nat) : Iter :=
  ⟨small_n sz sample, sz⟩

/-- `Iter::next`: while `count > 0`, decrement it and produce one generated
element (the supply `gen` maps the size to the element). -/
def Iter.nextGen {T : Type} (gen : Nat → T) (it : Iter) : Option (T × Iter) :=
  if 0 < it.count then some (gen it.size, ⟨it.count - 1, it.size⟩) else none

/-- Collecting `count` elements from the countdown iterator. -/
def iterCollect {T : Type} (gen : Nat → T) (sz : Nat) : Nat → List T
  | 0 => []
  | n + 1 => gen sz :: iterCollect gen sz n

/-- `Arbitrary for ~[T]`: collect the countdown iterator produced by
`arbiter`. -/
def vecArbitrary {T : Type} (gen : Nat → T) (sz sample : Nat) : List T :=
  iterCollect gen (arbiter sz sample).size (arbiter sz sample).count

/-- `gen_str(n)`: a string of `n` generated characters (the supply `cgen`
maps the position to the character). -/
def genStr (cgen : Nat → Char) : Nat → List Char
  | 0 => []
  | n + 1 => cgen n :: genStr cgen n

/-- `Arbitrary for ~str`: a generated string of length `small_n(sz)`. -/
def strArbitrary (cgen : Nat → Char) (sz sample : Nat) : List Char :=
  genStr cgen (small_n sz sample)

/-- `Arbitrary for HashSet<K>`: inserting the collected elements into a
set keeps one copy of each distinct element. -/
def hashSetArbitrary {T : Type} [DecidableEq T] (gen : Nat → T)
    (sz sample : Nat) : List T :=
  (vecArbitrary gen sz sample).dedup

/-- `Arbitrary for HashMap<K, V>`: the key set of the map collected from
the generated pairs — one entry per distinct generated key. -/
def hashMapArbitraryKeys {K V : Type} [DecidableEq K] (gen : Nat → K × V)
    (sz sample : Nat) : List K :=
  ((vecArbitrary gen sz sample).map Prod.fst).dedup

/-!
Theorems.  Helper lemmas come first, the per-claim theorems afterwards.
-/

theorem Lazy.foldl_push {T C : Type} (vs : List T) (h : List T) (ts : List C) :
    vs.foldl Lazy.push ⟨h, ts⟩ = ⟨h ++ vs, ts⟩ := by
  induction vs generalizing h with
  | nil => simp
  | cons v vs ih =>
      simp only [List.foldl_cons, Lazy.push, ih, List.append_assoc,
        List.singleton_append]

theorem Lazy.ofPushes_eq {T C : Type} (vs : List T) :
    (Lazy.ofPushes vs : Lazy T C) = ⟨vs, []⟩ := by
  simpa [Lazy.ofPushes, Lazy.new] using Lazy.foldl_push vs [] ([] : List C)

theorem Lazy.next_nil {T C : Type} (force : C → List T × List C) (fuel : Nat) :
    Lazy.next force fuel (⟨[], []⟩ : Lazy T C) = some (none, ⟨[], []⟩) := by
  cases fuel <;> rfl

theorem Lazy.next_cons {T C : Type} (force : C → List T × List C) (fuel : Nat)
    (v : T) (vs : List T) (cs : List C) :
    Lazy.next force fuel (⟨v :: vs, cs⟩ : Lazy T C) =
      some (some v, ⟨vs, cs⟩) := by
  cases fuel <;> rfl

theorem Lazy.pulls_nil {T C : Type} (force : C → List T × List C)
    (n fuel : Nat) :
    Lazy.pulls force n fuel (⟨[], []⟩ : Lazy T C) =
      some (List.replicate n none, ⟨[], []⟩) := by
  induction n with
  | zero => simp [Lazy.pulls]
  | succ n ih => simp [Lazy.pulls, Lazy.next_nil, ih, List.replicate_succ]

theorem Lazy.pulls_no_thunks {T C : Type} (force : C → List T × List C)
    (vs : List T) (k fuel : Nat) :
    Lazy.pulls force (vs.length + k) fuel (⟨vs, []⟩ : Lazy T C) =
      some (vs.map some ++ List.replicate k none, ⟨[], []⟩) := by
  induction vs with
  | nil =>
      simpa using Lazy.pulls_nil force k fuel
  | cons v vs ih =>
      simp [List.length_cons, Nat.succ_add, Lazy.pulls, Lazy.next_cons, ih]

/-- C1: a sequence constructed purely by `push` calls with values
`[v1..vn]` and no thunks yields, under successive `next` calls,
`Some v1, …, Some vn` in order, and every pull after the n-th returns
`None`, forever (here: for any number `k` of further pulls), ending in the
empty state.  The thunk interpretation `force` is irrelevant since the
thunk queue is empty; no loop fuel is needed. -/
theorem c1_push_only_fifo {T C : Type} (force : C → List T × List C)
    (vs : List T) (k fuel : Nat) :
    Lazy.pulls force (vs.length + k) fuel (Lazy.ofPushes vs : Lazy T C) =
      some (vs.map some ++ List.replicate k none, ⟨[], []⟩) := by
  rw [Lazy.ofPushes_eq]
  exact Lazy.pulls_no_thunks force vs k fuel

theorem Lazy.next_mono {T C : Type} (force : C → List T × List C) :
    ∀ (fuel fuel' : Nat) (L : Lazy T C) (r : Option T × Lazy T C),
      fuel ≤ fuel' → Lazy.next force fuel L = some r →
      Lazy.next force fuel' L = some r := by
  intro fuel
  induction fuel with
  | zero =>
      intro fuel' L r _ h
      match L with
      | ⟨[], []⟩ => rw [Lazy.next_nil] at h ⊢; exact h
      | ⟨[], c :: cs⟩ => exact absurd h (by simp [Lazy.next])
      | ⟨v :: vs, cs⟩ => rw [Lazy.next_cons] at h ⊢; exact h
  | succ fuel ih =>
      intro fuel' L r hle h
      match L with
      | ⟨[], []⟩ => rw [Lazy.next_nil] at h ⊢; exact h
      | ⟨[], c :: cs⟩ =>
          obtain ⟨f', rfl⟩ : ∃ f', fuel' = f' + 1 :=
            ⟨fuel' - 1, by omega⟩
          have h' : Lazy.next force fuel
              (⟨(force c).1, cs ++ (force c).2⟩ : Lazy T C) = some r := h
          exact ih f' _ r (by omega) h'
      | ⟨v :: vs, cs⟩ => rw [Lazy.next_cons] at h ⊢; exact h

theorem Lazy.pulls_mono {T C : Type} (force : C → List T × List C) :
    ∀ (n fuel fuel' : Nat) (L : Lazy T C)
      (r : List (Option T) × Lazy T C),
      fuel ≤ fuel' → Lazy.pulls force n fuel L = some r →
      Lazy.pulls force n fuel' L = some r := by
  intro n
  induction n with
  | zero => intro fuel fuel' L r _ h; exact h
  | succ n ih =>
      intro fuel fuel' L r hle h
      rw [Lazy.pulls] at h
      match hn : Lazy.next force fuel L with
      | none => simp only [hn] at h; exact Option.noConfusion h
      | some (r1, L1) =>
          simp only [hn] at h
          match hp : Lazy.pulls force n fuel L1 with
          | none => simp only [hp] at h; exact Option.noConfusion h
          | some (rs, L2) =>
              simp only [hp] at h
              simp only [Lazy.pulls, Lazy.next_mono force fuel fuel' L _ hle hn,
                ih fuel fuel' L1 _ hle hp]
              exact h

theorem Lazy.pulls_head_prefix {T C : Type} (force : C → List T × List C)
    (hs : List T) (ts : List C) (m fuel : Nat) :
    Lazy.pulls force (hs.length + m) fuel (⟨hs, ts⟩ : Lazy T C) =
      match Lazy.pulls force m fuel (⟨[], ts⟩ : Lazy T C) with
      | none => none
      | some (rs, L) => some (hs.map some ++ rs, L) := by
  induction hs with
  | nil =>
      simp only [List.length_nil, Nat.zero_add, List.map_nil,
        List.nil_append]
      match h : Lazy.pulls force m fuel (⟨[], ts⟩ : Lazy T C) with
      | none => simp
      | some (rs, L) => simp
  | cons v vs ih =>
      simp only [List.length_cons, Nat.succ_add, List.map_cons]
      rw [Lazy.pulls]
      simp only [Lazy.next_cons]
      rw [ih]
      match h : Lazy.pulls force m fuel (⟨[], ts⟩ : Lazy T C) with
      | none => simp
      | some (rs, L) => simp

/-- C4: the exhausted state.  If a pull returns `None` the state it leaves
is exactly the empty-empty state (`pull` returns "no more elements" iff
both the ready buffer and the thunk queue are empty at return time), and
from the empty-empty state every subsequent pull — with any loop fuel, and
no intervening external push — again returns `None` with the state
unchanged, resurrecting nothing. -/
theorem c4_terminal_state {T C : Type} (force : C → List T × List C)
    (fuel : Nat) (L Lf : Lazy T C)
    (h : Lazy.next force fuel L = some (none, Lf)) :
    Lf = Lazy.new ∧
      ∀ fuel' : Nat, Lazy.next force fuel' Lf = some (none, Lf) := by
  have hLf : Lf = Lazy.new := by
    induction fuel generalizing L with
    | zero =>
        match L with
        | ⟨[], []⟩ =>
            rw [Lazy.next_nil] at h
            injection h with h1
            injection h1 with ha hb
            exact hb.symm
        | ⟨[], c :: cs⟩ => exact absurd h (by simp [Lazy.next])
        | ⟨v :: vs, cs⟩ =>
            rw [Lazy.next_cons] at h
            injection h with h1
            injection h1 with ha hb
            exact absurd ha (by simp)
    | succ fuel ih =>
        match L with
        | ⟨[], []⟩ =>
            rw [Lazy.next_nil] at h
            injection h with h1
            injection h1 with ha hb
            exact hb.symm
        | ⟨[], c :: cs⟩ => exact ih _ h
        | ⟨v :: vs, cs⟩ =>
            rw [Lazy.next_cons] at h
            injection h with h1
            injection h1 with ha hb
            exact absurd ha (by simp)
  subst hLf
  exact ⟨rfl, fun fuel' => Lazy.next_nil force fuel'⟩

/-- Witness for C4 at a concrete input: a sequence holding one thunk that
appends nothing is driven to the empty state, whose `None` answer is then
terminal. -/
theorem c4_terminal_state_witness :
    (Lazy.new : Lazy Nat Unit) = Lazy.new ∧
      ∀ fuel' : Nat,
        Lazy.next (fun _ => ([], [])) fuel' (Lazy.new : Lazy Nat Unit) =
          some (none, Lazy.new) :=
  c4_terminal_state (fun _ => ([], [])) 1 ⟨[], [()]⟩ Lazy.new rfl

theorem Lazy.pulls_map_list {A T : Type} (f : A → T) (src : List A) (k : Nat) :
    Lazy.pulls (mapForce f) (src.length + (k + 1)) 1
        (⟨[], [src]⟩ : Lazy T (List A)) =
      some (src.map (fun a => some (f a)) ++ List.replicate (k + 1) none,
        ⟨[], []⟩) := by
  induction src generalizing k with
  | nil =>
      have hn : Lazy.next (mapForce f) 1 (⟨[], [[]]⟩ : Lazy T (List A)) =
          some (none, ⟨[], []⟩) := rfl
      simp [Lazy.pulls, hn, Lazy.pulls_nil, List.replicate_succ]
  | cons x xs ih =>
      have hn : Lazy.next (mapForce f) 1 (⟨[], [x :: xs]⟩ : Lazy T (List A)) =
          some (some (f x), ⟨[], [xs]⟩) := rfl
      have hlen : (x :: xs).length + (k + 1) = (xs.length + (k + 1)) + 1 := by
        simp [List.length_cons]; omega
      rw [hlen, Lazy.pulls]
      simp only [hn, ih k]
      simp

/-- C2: `push_map` over a finite source yields exactly the mapped elements
in source order and then `None` forever after (any `k + 1` trailing pulls),
with one source element consumed per forcing step (per-pull loop fuel 1
always suffices).  Concretely, over `[1, 2, 3]` with doubling the pulls
yield `Some 2, Some 4, Some 6, None`, and after the first two pulls the
state still holds the unforced combinator over the untouched rest `[3]` of
the source — `f 3` has not been computed when `f 1` and `f 2` are
delivered. -/
theorem c2_push_map_order_and_laziness :
    (∀ (A T : Type) (f : A → T) (src : List A) (k : Nat),
        Lazy.pulls (mapForce f) (src.length + (k + 1)) 1
            (Lazy.push_map Lazy.new src) =
          some (src.map (fun a => some (f a)) ++ List.replicate (k + 1) none,
            ⟨[], []⟩)) ∧
      Lazy.pulls (mapForce (fun n => 2 * n)) 4 1
          (Lazy.push_map Lazy.new [1, 2, 3]) =
        some ([some 2, some 4, some 6, none], ⟨[], []⟩) ∧
      Lazy.pulls (mapForce (fun n => 2 * n)) 2 1
          (Lazy.push_map Lazy.new [1, 2, 3]) =
        some ([some 2, some 4], ⟨[], [[3]]⟩) := by
  refine ⟨fun A T f src k => ?_, rfl, rfl⟩
  exact Lazy.pulls_map_list f src k

/-- C7: the pull operation is an iterative trampoline.  Over an unbounded
source (the stream `g`), any number `N` of sequential pulls succeeds with
the per-pull loop bound fixed at `1`: each pull performs exactly one
forcing, the forced combinator re-enqueues its continuation as a fresh
deferred computation (queue re-entry) rather than invoking it, so the work
per pull — and hence the call depth — is constant in `N` (in particular
`N = 100000` sequential pulls go through), and the `N` pulls deliver the
first `N` mapped stream elements in order. -/
theorem c7_trampoline_unbounded {A T : Type} (f : A → T) (g : Nat → A) :
    ∀ (N i : Nat),
      Lazy.pulls (mapForceS f g) N 1 (Lazy.push_mapS Lazy.new i) =
        some ((List.range' i N).map (fun j => some (f (g j))), ⟨[], [i + N]⟩) := by
  intro N
  induction N with
  | zero => intro i; simp [Lazy.pulls, Lazy.push_mapS, Lazy.push_thunk, Lazy.new]
  | succ N ih =>
      intro i
      have hn : Lazy.next (mapForceS f g) 1
          (⟨[], [i]⟩ : Lazy T Nat) = some (some (f (g i)), ⟨[], [i + 1]⟩) := rfl
      have hseed : (Lazy.push_mapS Lazy.new (i + 1) : Lazy T Nat) =
          ⟨[], [i + 1]⟩ := rfl
      rw [Lazy.pulls]
      simp only [Lazy.push_mapS, Lazy.push_thunk, Lazy.new, List.nil_append, hn]
      rw [← hseed, ih (i + 1)]
      have hr : List.range' i (N + 1) = i :: List.range' (i + 1) N :=
        List.range'_succ i N 1
      simp [hr, Nat.add_assoc, Nat.add_comm 1 N]

theorem Lazy.applyOps_eq {T C : Type} (ops : List (T ⊕ C)) (h : List T)
    (ts : List C) :
    Lazy.applyOps ⟨h, ts⟩ ops = ⟨h ++ opsValues ops, ts ++ opsThunks ops⟩ := by
  induction ops generalizing h ts with
  | nil => simp [Lazy.applyOps, opsValues, opsThunks]
  | cons o ops ih =>
      cases o with
      | inl v =>
          have hstep : Lazy.applyOps (⟨h, ts⟩ : Lazy T C) (Sum.inl v :: ops) =
              Lazy.applyOps ⟨h ++ [v], ts⟩ ops := rfl
          rw [hstep, ih]
          simp [opsValues, opsThunks, List.filterMap_cons]
      | inr c =>
          have hstep : Lazy.applyOps (⟨h, ts⟩ : Lazy T C) (Sum.inr c :: ops) =
              Lazy.applyOps ⟨h, ts ++ [c]⟩ ops := rfl
          rw [hstep, ih]
          simp [opsValues, opsThunks, List.filterMap_cons]

theorem Lazy.pulls_force_step {T C : Type} (force : C → List T × List C)
    (n fuel : Nat) (c : C) (cs : List C) (r : List (Option T) × Lazy T C)
    (h : Lazy.pulls force (n + 1) fuel
        (⟨(force c).1, cs ++ (force c).2⟩ : Lazy T C) = some r) :
    Lazy.pulls force (n + 1) (fuel + 1) (⟨[], c :: cs⟩ : Lazy T C) = some r := by
  rw [Lazy.pulls] at h ⊢
  have hstep : Lazy.next force (fuel + 1) (⟨[], c :: cs⟩ : Lazy T C) =
      Lazy.next force fuel ⟨(force c).1, cs ++ (force c).2⟩ := rfl
  rw [hstep]
  match hn : Lazy.next force fuel
      (⟨(force c).1, cs ++ (force c).2⟩ : Lazy T C) with
  | none => simp only [hn] at h; exact Option.noConfusion h
  | some (r1, L1) =>
      simp only [hn] at h
      match hp : Lazy.pulls force n fuel L1 with
      | none => simp only [hp] at h; exact Option.noConfusion h
      | some (rs, L2) =>
          simp only [hp] at h
          simp only [Lazy.pulls_mono force n fuel (fuel + 1) L1 _
            (Nat.le_succ _) hp]
          exact h

theorem Lazy.specDrain_sound {T C : Type} (force : C → List T × List C) :
    ∀ (d : Nat) (ts : List C) (out : List T),
      specDrain force d ts = some out →
      ∀ k : Nat,
        Lazy.pulls force (out.length + (k + 1)) d (⟨[], ts⟩ : Lazy T C) =
          some (out.map some ++ List.replicate (k + 1) none, ⟨[], []⟩) := by
  intro d
  induction d with
  | zero =>
      intro ts out h k
      match ts with
      | [] =>
          have hout : out = [] := by
            have := h.symm
            simpa [specDrain] using this
          subst hout
          simpa using Lazy.pulls_nil force (k + 1) 0
      | c :: cs => exact absurd h (by simp [specDrain])
  | succ d ih =>
      intro ts out h k
      match ts with
      | [] =>
          have hout : out = [] := by
            have := h.symm
            simpa [specDrain] using this
          subst hout
          simpa using Lazy.pulls_nil force (k + 1) (d + 1)
      | c :: cs =>
          rw [specDrain] at h
          match hd : specDrain force d (cs ++ (force c).2) with
          | none => simp only [hd] at h; exact Option.noConfusion h
          | some out' =>
              simp only [hd] at h
              injection h with h1
              subst h1
              have key := ih (cs ++ (force c).2) out' hd k
              have key2 : Lazy.pulls force
                  ((force c).1.length + (out'.length + (k + 1))) d
                  (⟨(force c).1, cs ++ (force c).2⟩ : Lazy T C) =
                some ((force c).1.map some ++
                  (out'.map some ++ List.replicate (k + 1) none), ⟨[], []⟩) := by
                rw [Lazy.pulls_head_prefix]
                simp only [key]
              have hlen2 : (force c).1.length + (out'.length + (k + 1)) =
                  ((force c).1.length + out'.length + k) + 1 := by omega
              rw [hlen2] at key2
              have hfin := Lazy.pulls_force_step force
                ((force c).1.length + out'.length + k) d c cs _ key2
              have hlen : ((force c).1 ++ out').length + (k + 1) =
                  ((force c).1.length + out'.length + k) + 1 := by
                simp [List.length_append]; omega
              rw [hlen, hfin]
              simp [List.map_append, List.append_assoc]

/-- C3: for a sequence built by any interleaving of `push` and `push_thunk`
calls before the first pull, the observed pull order is: first all values
sitting in the ready buffer at time zero in push order, then the values
obtained by forcing the pending entries head-first in FIFO order,
recursively (`specDrain`, modelled from the spec's words), followed by
`None` forever after (any `k + 1` trailing pulls), ending in the empty
state. -/
theorem c3_interleaving_order {T C : Type} (force : C → List T × List C)
    (ops : List (T ⊕ C)) (d k : Nat) (out : List T)
    (h : specDrain force d (opsThunks ops) = some out) :
    Lazy.pulls force ((opsValues ops).length + (out.length + (k + 1))) d
        (Lazy.applyOps Lazy.new ops) =
      some ((opsValues ops ++ out).map some ++ List.replicate (k + 1) none,
        ⟨[], []⟩) := by
  have hbuild : Lazy.applyOps (Lazy.new : Lazy T C) ops =
      ⟨opsValues ops, opsThunks ops⟩ := by
    have := Lazy.applyOps_eq ops ([] : List T) ([] : List C)
    simpa [Lazy.new] using this
  rw [hbuild, Lazy.pulls_head_prefix]
  simp only [Lazy.specDrain_sound force d (opsThunks ops) out h k]
  simp [List.map_append]

/-- Witness for C3 at a concrete input: pushes of 1 and 4 interleaved with
one thunk carrying `[2, 3]`; the observed order is 1, 4 (ready, push
order), then 2, 3 (forced), then `None`. -/
theorem c3_interleaving_order_witness :
    specDrain (fun c => (c, [])) 1
        (opsThunks ([Sum.inl 1, Sum.inr [2, 3], Sum.inl 4] :
          List (Nat ⊕ List Nat))) = some [2, 3] ∧
      Lazy.pulls (fun c => (c, []))
          ((opsValues ([Sum.inl 1, Sum.inr [2, 3], Sum.inl 4] :
            List (Nat ⊕ List Nat))).length + ([2, 3].length + (0 + 1))) 1
          (Lazy.applyOps Lazy.new
            ([Sum.inl 1, Sum.inr [2, 3], Sum.inl 4] :
              List (Nat ⊕ List Nat))) =
        some ([some 1, some 4, some 2, some 3, none], ⟨[], []⟩) := by
  constructor
  · rfl
  · have hyp : specDrain (fun c => (c, [])) 1
        (opsThunks ([Sum.inl 1, Sum.inr [2, 3], Sum.inl 4] :
          List (Nat ⊕ List Nat))) = some [2, 3] := rfl
    exact c3_interleaving_order (fun c => (c, []))
      ([Sum.inl 1, Sum.inr [2, 3], Sum.inl 4] : List (Nat ⊕ List Nat))
      1 0 [2, 3] hyp

/-- C6: if a forced computation fails, the failure surfaces synchronously
out of the very pull that forced it — as the single `Except.error` result
of `nextE` — and the sequence state at that moment is exactly the state
the trampoline had reached just before the failing computation was
dequeued (`⟨[], c :: cs⟩`, reachable from the starting state by successful
forcing steps), minus that dequeued item: `⟨[], cs⟩`, the failing code
having applied no append. -/
theorem c6_failure_state {T C : Type} (forceE : C → Option (List T × List C)) :
    ∀ (fuel : Nat) (L Lf : Lazy T C),
      Lazy.nextE forceE fuel L = some (Except.error Lf) →
      ∃ (k : Nat) (c : C) (cs : List C),
        Lazy.iterSteps forceE k L = some ⟨[], c :: cs⟩ ∧
          forceE c = none ∧ Lf = ⟨[], cs⟩ := by
  intro fuel
  induction fuel with
  | zero =>
      intro L Lf h
      match L with
      | ⟨[], []⟩ =>
          injection h with h1
          exact Except.noConfusion h1
      | ⟨[], c :: cs⟩ => exact Option.noConfusion h
      | ⟨v :: vs, cs⟩ =>
          injection h with h1
          exact Except.noConfusion h1
  | succ fuel ih =>
      intro L Lf h
      match L with
      | ⟨[], []⟩ =>
          injection h with h1
          exact Except.noConfusion h1
      | ⟨[], c :: cs⟩ =>
          rw [Lazy.nextE] at h
          match hf : forceE c with
          | none =>
              simp only [hf] at h
              injection h with h1
              injection h1 with h2
              exact ⟨0, c, cs, rfl, hf, h2.symm⟩
          | some r =>
              simp only [hf] at h
              obtain ⟨k, c', cs', h1, h2, h3⟩ := ih _ _ h
              refine ⟨k + 1, c', cs', ?_, h2, h3⟩
              have hstep : Lazy.stepOk forceE (⟨[], c :: cs⟩ : Lazy T C) =
                  some ⟨r.1, cs ++ r.2⟩ := by
                simp [Lazy.stepOk, hf]
              rw [Lazy.iterSteps, hstep]
              exact h1
      | ⟨v :: vs, cs⟩ =>
          injection h with h1
          exact Except.noConfusion h1

/-- Witness for C6 at a concrete input: one failing computation at the head
of the queue; the failure surfaces out of the first pull and leaves the
rest of the queue (here empty) untouched. -/
theorem c6_failure_state_witness :
    ∃ (k : Nat) (c : Unit) (cs : List Unit),
      Lazy.iterSteps (fun _ => (none : Option (List Nat × List Unit))) k
          (⟨[], [()]⟩ : Lazy Nat Unit) = some ⟨[], c :: cs⟩ ∧
        (fun _ => (none : Option (List Nat × List Unit))) c = none ∧
        (⟨[], []⟩ : Lazy Nat Unit) = ⟨[], cs⟩ :=
  c6_failure_state (fun _ => none) 1 ⟨[], [()]⟩ ⟨[], []⟩ rfl

theorem tagFrom_map_fst {C : Type} (cs : List C) :
    ∀ n : Nat, (tagFrom n cs).map Prod.fst = List.range' n cs.length := by
  induction cs with
  | nil => intro n; rfl
  | cons c cs ih =>
      intro n
      rw [tagFrom, List.map_cons, ih (n + 1), List.length_cons,
        List.range'_succ]

theorem tagFrom_map_snd {C : Type} (cs : List C) :
    ∀ n : Nat, (tagFrom n cs).map Prod.snd = cs := by
  induction cs with
  | nil => intro n; rfl
  | cons c cs ih =>
      intro n
      rw [tagFrom, List.map_cons, ih (n + 1)]

theorem ILazy.inext_once {T C : Type} (force : C → List T × List C) :
    ∀ (fuel : Nat) (L : ILazy T C) (ids : List Nat) (r : Option T)
      (L' : ILazy T C),
      L.WF → ILazy.inext force fuel L = some (ids, r, L') →
      L'.WF ∧ ids.Nodup ∧ L.ctr ≤ L'.ctr ∧
        (∀ j ∈ ids, j ∈ L.ids ∨ L.ctr ≤ j) ∧
        (∀ j ∈ ids, j ∉ L'.ids ∧ j < L'.ctr) ∧
        (∀ j ∈ L'.ids, j ∈ L.ids ∨ L.ctr ≤ j) := by
  intro fuel
  induction fuel with
  | zero =>
      intro L ids r L' hWF h
      match L with
      | ⟨[], [], ctr⟩ =>
          injection h with h1
          injection h1 with ha hb
          injection hb with hc hd
          subst ha; subst hd
          exact ⟨hWF, List.nodup_nil, le_refl _, by simp, by simp,
            fun j hj => Or.inl hj⟩
      | ⟨[], (i, c) :: cs, ctr⟩ => exact Option.noConfusion h
      | ⟨v :: vs, cs, ctr⟩ =>
          injection h with h1
          injection h1 with ha hb
          injection hb with hc hd
          subst ha; subst hd
          exact ⟨hWF, List.nodup_nil, le_refl _, by simp, by simp,
            fun j hj => Or.inl hj⟩
  | succ fuel ih =>
      intro L ids r L' hWF h
      match L with
      | ⟨[], [], ctr⟩ =>
          injection h with h1
          injection h1 with ha hb
          injection hb with hc hd
          subst ha; subst hd
          exact ⟨hWF, List.nodup_nil, le_refl _, by simp, by simp,
            fun j hj => Or.inl hj⟩
      | ⟨v :: vs, cs, ctr⟩ =>
          injection h with h1
          injection h1 with ha hb
          injection hb with hc hd
          subst ha; subst hd
          exact ⟨hWF, List.nodup_nil, le_refl _, by simp, by simp,
            fun j hj => Or.inl hj⟩
      | ⟨[], (i, c) :: cs, ctr⟩ =>
          have h' : (match ILazy.inext force fuel
              ⟨(force c).1, cs ++ tagFrom ctr (force c).2,
                ctr + (force c).2.length⟩ with
            | none => none
            | some (ids0, r0, L0) => some (i :: ids0, r0, L0)) =
              some (ids, r, L') := h
          match hrec : ILazy.inext force fuel
              ⟨(force c).1, cs ++ tagFrom ctr (force c).2,
                ctr + (force c).2.length⟩ with
          | none => simp only [hrec] at h'; exact Option.noConfusion h'
          | some (ids0, r0, L0) =>
              simp only [hrec] at h'
              injection h' with h1
              injection h1 with ha hb
              injection hb with hc hd
              subst ha; subst hd
              obtain ⟨hNodup, hBound⟩ := hWF
              have hids : (⟨[], (i, c) :: cs, ctr⟩ : ILazy T C).ids =
                  i :: cs.map Prod.fst := rfl
              rw [hids] at hNodup hBound
              have hiNot : i ∉ cs.map Prod.fst := (List.nodup_cons.mp hNodup).1
              have hcsNodup : (cs.map Prod.fst).Nodup :=
                (List.nodup_cons.mp hNodup).2
              have hiLt : i < ctr := hBound i (List.mem_cons_self _ _)
              have hcsLt : ∀ j ∈ cs.map Prod.fst, j < ctr := fun j hj =>
                hBound j (List.mem_cons_of_mem _ hj)
              have hMids : (⟨(force c).1, cs ++ tagFrom ctr (force c).2,
                  ctr + (force c).2.length⟩ : ILazy T C).ids =
                  cs.map Prod.fst ++ List.range' ctr (force c).2.length := by
                show (cs ++ tagFrom ctr (force c).2).map Prod.fst = _
                rw [List.map_append, tagFrom_map_fst]
              have hMWF : (⟨(force c).1, cs ++ tagFrom ctr (force c).2,
                  ctr + (force c).2.length⟩ : ILazy T C).WF := by
                refine ⟨?_, ?_⟩
                · rw [hMids]
                  rw [List.nodup_append]
                  refine ⟨hcsNodup, List.nodup_range' _ _, ?_⟩
                  intro a ha1 ha2
                  have h1 := hcsLt a ha1
                  have h2 := (List.mem_range'_1.mp ha2).1
                  omega
                · rw [hMids]
                  intro j hj
                  rcases List.mem_append.mp hj with hj1 | hj2
                  · have := hcsLt j hj1
                    show j < ctr + (force c).2.length
                    omega
                  · exact (List.mem_range'_1.mp hj2).2
              obtain ⟨hWF0, hNodup0, hctr0, hprov0, hcons0, hqprov0⟩ :=
                ih _ ids0 r0 L0 hMWF hrec
              have hMctr : (⟨(force c).1, cs ++ tagFrom ctr (force c).2,
                  ctr + (force c).2.length⟩ : ILazy T C).ctr =
                  ctr + (force c).2.length := rfl
              rw [hMctr] at hctr0
              rw [hMids] at hprov0 hqprov0
              simp only [hMctr] at hprov0 hqprov0
              have hiNotM : i ∉ cs.map Prod.fst ++
                  List.range' ctr (force c).2.length := by
                intro hmem
                rcases List.mem_append.mp hmem with hm | hm
                · exact hiNot hm
                · have := (List.mem_range'_1.mp hm).1
                  omega
              refine ⟨hWF0, ?_, ?_, ?_, ?_, ?_⟩
              · rw [List.nodup_cons]
                refine ⟨?_, hNodup0⟩
                intro hmem
                rcases hprov0 i hmem with hm | hl
                · exact hiNotM hm
                · omega
              · show ctr ≤ L0.ctr
                omega
              · intro j hj
                rw [hids]
                rcases List.mem_cons.mp hj with hj1 | hj2
                · subst hj1
                  exact Or.inl (List.mem_cons_self _ _)
                · rcases hprov0 j hj2 with hm | hl
                  · rcases List.mem_append.mp hm with hm1 | hm2
                    · exact Or.inl (List.mem_cons_of_mem _ hm1)
                    · have := (List.mem_range'_1.mp hm2).1
                      exact Or.inr (show ctr ≤ j by omega)
                  · exact Or.inr (show ctr ≤ j by omega)
              · intro j hj
                rcases List.mem_cons.mp hj with hj1 | hj2
                · subst hj1
                  refine ⟨?_, ?_⟩
                  · intro hmem
                    rcases hqprov0 j hmem with hm | hl
                    · exact hiNotM hm
                    · omega
                  · omega
                · exact hcons0 j hj2
              · intro j hj
                rw [hids]
                rcases hqprov0 j hj with hm | hl
                · rcases List.mem_append.mp hm with hm1 | hm2
                  · exact Or.inl (List.mem_cons_of_mem _ hm1)
                  · have := (List.mem_range'_1.mp hm2).1
                    exact Or.inr (show ctr ≤ j by omega)
                · exact Or.inr (show ctr ≤ j by omega)

theorem ILazy.ipulls_inv {T C : Type} (force : C → List T × List C) :
    ∀ (n fuel : Nat) (L : ILazy T C) (ids : List Nat)
      (rs : List (Option T)) (L' : ILazy T C),
      L.WF → ILazy.ipulls force n fuel L = some (ids, rs, L') →
      L'.WF ∧ ids.Nodup ∧ L.ctr ≤ L'.ctr ∧
        (∀ j ∈ ids, j ∈ L.ids ∨ L.ctr ≤ j) ∧
        (∀ j ∈ ids, j ∉ L'.ids ∧ j < L'.ctr) ∧
        (∀ j ∈ L'.ids, j ∈ L.ids ∨ L.ctr ≤ j) := by
  intro n
  induction n with
  | zero =>
      intro fuel L ids rs L' hWF h
      injection h with h1
      injection h1 with ha hb
      injection hb with hc hd
      subst ha; subst hd
      exact ⟨hWF, List.nodup_nil, le_refl _, by simp, by simp,
        fun j hj => Or.inl hj⟩
  | succ n ih =>
      intro fuel L ids rs L' hWF h
      rw [ILazy.ipulls] at h
      match h1 : ILazy.inext force fuel L with
      | none => simp only [h1] at h; exact Option.noConfusion h
      | some (ids1, r1, L1) =>
          simp only [h1] at h
          match h2 : ILazy.ipulls force n fuel L1 with
          | none => simp only [h2] at h; exact Option.noConfusion h
          | some (ids2, rs2, L2) =>
              simp only [h2] at h
              injection h with h3
              injection h3 with ha hb
              injection hb with hc hd
              subst ha; subst hd
              obtain ⟨hWF1, hN1, hc1, hp1, hco1, hq1⟩ :=
                ILazy.inext_once force fuel L ids1 r1 L1 hWF h1
              obtain ⟨hWF2, hN2, hc2, hp2, hco2, hq2⟩ :=
                ih fuel L1 ids2 rs2 L2 hWF1 h2
              refine ⟨hWF2, ?_, le_trans hc1 hc2, ?_, ?_, ?_⟩
              · rw [List.nodup_append]
                refine ⟨hN1, hN2, ?_⟩
                intro a ha1 ha2
                rcases hp2 a ha2 with hmem | hle
                · exact (hco1 a ha1).1 hmem
                · have := (hco1 a ha1).2
                  omega
              · intro j hj
                rcases List.mem_append.mp hj with hj1 | hj2
                · exact hp1 j hj1
                · rcases hp2 j hj2 with hmem | hle
                  · exact hq1 j hmem
                  · exact Or.inr (le_trans hc1 hle)
              · intro j hj
                rcases List.mem_append.mp hj with hj1 | hj2
                · refine ⟨?_, ?_⟩
                  · intro hmem
                    rcases hq2 j hmem with hm | hl
                    · exact (hco1 j hj1).1 hm
                    · have := (hco1 j hj1).2
                      omega
                  · have := (hco1 j hj1).2
                    have := hc2
                    omega
                · exact hco2 j hj2
              · intro j hj
                rcases hq2 j hj with hm | hl
                · exact hq1 j hm
                · exact Or.inr (le_trans hc1 hl)

/-- C5: every deferred computation is forced at most once.  Identities are
ghost state: each queued computation carries one, fresh ones are assigned
from the counter when a forcing appends new computations, and the
invoked computation is removed from the queue before its call (the state
handed onward in `ILazy.inext` no longer contains it).  Starting from any
well-formed state, the identities invoked over any run of pulls are
pairwise distinct — no computation is ever invoked twice — and none of
them is still in the queue afterwards: a forced computation never
re-enters, any continuation being a freshly tagged new computation. -/
theorem c5_thunk_single_shot {T C : Type} (force : C → List T × List C)
    (n fuel : Nat) (L : ILazy T C) (ids : List Nat) (rs : List (Option T))
    (L' : ILazy T C) (hWF : L.WF)
    (h : ILazy.ipulls force n fuel L = some (ids, rs, L')) :
    ids.Nodup ∧ ∀ j ∈ ids, j ∉ L'.ids := by
  obtain ⟨_, hN, _, _, hco, _⟩ :=
    ILazy.ipulls_inv force n fuel L ids rs L' hWF h
  exact ⟨hN, fun j hj => (hco j hj).1⟩

/-- Witness for C5 at a concrete input: one queued computation (identity 0)
that pushes the value 7; two pulls force it exactly once and it is gone
from the queue afterwards. -/
theorem c5_thunk_single_shot_witness :
    ([0] : List Nat).Nodup ∧
      ∀ j ∈ ([0] : List Nat), j ∉ (⟨[], [], 1⟩ : ILazy Nat Unit).ids := by
  have hWF : (⟨[], [(0, ())], 1⟩ : ILazy Nat Unit).WF :=
    ⟨by decide, by decide⟩
  exact c5_thunk_single_shot (fun _ => ([7], [])) 2 1 ⟨[], [(0, ())], 1⟩
    [0] [some 7, none] ⟨[], [], 1⟩ hWF rfl

theorem ILazy.inext_erase {T C : Type} (force : C → List T × List C) :
    ∀ (fuel : Nat) (L : ILazy T C) (ids : List Nat) (r : Option T)
      (L' : ILazy T C),
      ILazy.inext force fuel L = some (ids, r, L') →
      Lazy.next force fuel L.erase = some (r, L'.erase) := by
  intro fuel
  induction fuel with
  | zero =>
      intro L ids r L' h
      match L with
      | ⟨[], [], ctr⟩ =>
          injection h with h1
          injection h1 with ha hb
          injection hb with hc hd
          subst hc; subst hd
          rfl
      | ⟨[], (i, c) :: cs, ctr⟩ => exact Option.noConfusion h
      | ⟨v :: vs, cs, ctr⟩ =>
          injection h with h1
          injection h1 with ha hb
          injection hb with hc hd
          subst hc; subst hd
          rfl
  | succ fuel ih =>
      intro L ids r L' h
      match L with
      | ⟨[], [], ctr⟩ =>
          injection h with h1
          injection h1 with ha hb
          injection hb with hc hd
          subst hc; subst hd
          rfl
      | ⟨v :: vs, cs, ctr⟩ =>
          injection h with h1
          injection h1 with ha hb
          injection hb with hc hd
          subst hc; subst hd
          rfl
      | ⟨[], (i, c) :: cs, ctr⟩ =>
          have h' : (match ILazy.inext force fuel
              ⟨(force c).1, cs ++ tagFrom ctr (force c).2,
                ctr + (force c).2.length⟩ with
            | none => none
            | some (ids0, r0, L0) => some (i :: ids0, r0, L0)) =
              some (ids, r, L') := h
          match hrec : ILazy.inext force fuel
              ⟨(force c).1, cs ++ tagFrom ctr (force c).2,
                ctr + (force c).2.length⟩ with
          | none => simp only [hrec] at h'; exact Option.noConfusion h'
          | some (ids0, r0, L0) =>
              simp only [hrec] at h'
              injection h' with h1
              injection h1 with ha hb
              injection hb with hc hd
              subst hc; subst hd
              have hM : (⟨(force c).1, cs ++ tagFrom ctr (force c).2,
                  ctr + (force c).2.length⟩ : ILazy T C).erase =
                  ⟨(force c).1, cs.map Prod.snd ++ (force c).2⟩ := by
                show (⟨(force c).1,
                    (cs ++ tagFrom ctr (force c).2).map Prod.snd⟩ : Lazy T C) = _
                rw [List.map_append, tagFrom_map_snd]
              have hstep : Lazy.next force (fuel + 1)
                  (⟨[], (i, c) :: cs, ctr⟩ : ILazy T C).erase =
                  Lazy.next force fuel
                    ⟨(force c).1, cs.map Prod.snd ++ (force c).2⟩ := rfl
              rw [hstep, ← hM]
              exact ih _ ids0 r0 L0 hrec

/-- C8: the frame effect of the two producers.  In every state, `push`
appends its value at the tail of the ready buffer and leaves the thunk
queue untouched, and `push_thunk` appends exactly one deferred computation
at the tail of the thunk queue and leaves the ready buffer untouched.
Both are total functions of the state — always legal — and neither is
defined in terms of any forcing interpretation, so neither can force a
computation. -/
theorem c8_push_frame {T C : Type} (L : Lazy T C) (v : T) (c : C) :
    (L.push v).head = L.head ++ [v] ∧ (L.push v).thunks = L.thunks ∧
      (L.push_thunk c).head = L.head ∧
      (L.push_thunk c).thunks = L.thunks ++ [c] :=
  ⟨rfl, rfl, rfl, rfl⟩

theorem iterCollect_length {T : Type} (gen : Nat → T) (sz : Nat) :
    ∀ n : Nat, (iterCollect gen sz n).length = n := by
  intro n
  induction n with
  | zero => rfl
  | succ n ih => simp [iterCollect, ih]

theorem genStr_length (cgen : Nat → Char) :
    ∀ n : Nat, (genStr cgen n).length = n := by
  intro n
  induction n with
  | zero => rfl
  | succ n ih => simp [genStr, ih]

/-- C9: for every size and every outcome of the random source, `small_n`
returns at most `16 * size`, and consequently every variable-length
structure built through it — vectors, strings, hash sets and hash maps —
has at most `16 * size` elements. -/
theorem c9_small_n_cap {T K V : Type} [DecidableEq T] [DecidableEq K]
    (gen : Nat → T) (cgen : Nat → Char) (pgen : Nat → K × V)
    (sz sample : Nat) :
    small_n sz sample ≤ 16 * sz ∧
      (vecArbitrary gen sz sample).length ≤ 16 * sz ∧
      (strArbitrary cgen sz sample).length ≤ 16 * sz ∧
      (hashSetArbitrary gen sz sample).length ≤ 16 * sz ∧
      (hashMapArbitraryKeys pgen sz sample).length ≤ 16 * sz := by
  have hcap : small_n sz sample ≤ 16 * sz := Nat.min_le_right _ _
  have hvec : (vecArbitrary gen sz sample).length = small_n sz sample :=
    iterCollect_length gen sz (small_n sz sample)
  have hvecp : (vecArbitrary pgen sz sample).length = small_n sz sample :=
    iterCollect_length pgen sz (small_n sz sample)
  refine ⟨hcap, by rw [hvec]; exact hcap, ?_, ?_, ?_⟩
  · rw [show (strArbitrary cgen sz sample).length = small_n sz sample from
      genStr_length cgen (small_n sz sample)]
    exact hcap
  · have hd : (hashSetArbitrary gen sz sample).length ≤
        (vecArbitrary gen sz sample).length :=
      List.Sublist.length_le (List.dedup_sublist _)
    omega
  · have hd : (hashMapArbitraryKeys pgen sz sample).length ≤
        ((vecArbitrary pgen sz sample).map Prod.fst).length :=
      List.Sublist.length_le (List.dedup_sublist _)
    rw [List.length_map] at hd
    omega

/-- C10: at size 0 the cap `16 * 0 = 0` forces `small_n` to return 0
whatever the random sample was, so vectors, strings, hash sets and hash
maps generated at size 0 are always empty. -/
theorem c10_size_zero_empty {T K V : Type} [DecidableEq T] [DecidableEq K]
    (gen : Nat → T) (cgen : Nat → Char) (pgen : Nat → K × V) (sample : Nat) :
    small_n 0 sample = 0 ∧ vecArbitrary gen 0 sample = [] ∧
      strArbitrary cgen 0 sample = [] ∧ hashSetArbitrary gen 0 sample = [] ∧
      hashMapArbitraryKeys pgen 0 sample = [] := by
  have h0 : small_n 0 sample = 0 := by simp [small_n]
  refine ⟨h0, ?_, ?_, ?_, ?_⟩
  · show iterCollect gen 0 (small_n 0 sample) = []
    rw [h0]
    rfl
  · show genStr cgen (small_n 0 sample) = []
    rw [h0]
    rfl
  · show (iterCollect gen 0 (small_n 0 sample)).dedup = []
    rw [h0]
    rfl
  · show ((iterCollect pgen 0 (small_n 0 sample)).map Prod.fst).dedup = []
    rw [h0]
    rfl
